import Mathlib

/-! Flight booking catalog (`dawood.cpp`)

A shallow embedding of the flight catalog of `dawood.cpp`: the passenger
record, the per-flight roster (a singly linked list that grows at its head),
the `Flight` class with its capacity check, and `FlightManager`, an unbalanced
binary search tree keyed by flight number.

Conventions of the embedding.

* `std::string` is `String`.  `operator<` on `std::string` is the
  lexicographic order of the bytes; on UTF-8 text that is the lexicographic
  order of the code points, which is the order of `String`.  The proofs use
  only that it is a strict linear order.
* `int` is `Int`.  The only arithmetic on an `int` is `bookedSeats++`, executed
  under the guard `bookedSeats < capacity`, and `capacity - bookedSeats`; the
  first cannot leave the range of `int`.
* `double` values are stored and copied, never computed with, so a `double`
  is carried as its 64-bit pattern.
* A nullable `shared_ptr<PassengerNode>` is a `List Passenger` (head first), a
  nullable `shared_ptr<Node>` is the inductive `Node` with a `null`
  constructor.  After `addFlight` returns, a `Flight` is referenced by exactly
  one tree node, so in-place mutation through the pointer is the replacement
  of the node's flight.
* A member function that mutates `*this` and may throw returns the result
  (`Except`) together with the state after the call.
* `make_shared` is taken to succeed: running out of memory is not modelled.
-/

namespace Dawood

/-- A `double`, carried as its 64-bit pattern (never computed with). -/
structure Double where
  bits : Nat
  deriving DecidableEq, Repr

/-- `class BookingException`: an exception carrying a message. -/
structure BookingException where
  message : String
  deriving DecidableEq, Repr

/-- `Payment::Method`. -/
inductive Method where
  | CASH
  | CARD
  deriving DecidableEq, Repr

/-- `class Passenger`. -/
structure Passenger where
  name : String
  ticketPrice : Double
  paymentMethod : Method
  deriving DecidableEq, Repr

/-- `class Flight`.  `passengersHead` is the linked list of `PassengerNode`s,
first node first. -/
structure Flight where
  flightNumber : String
  origin : String
  destination : String
  capacity : Int
  bookedSeats : Int
  baseTicketPrice : Double
  passengersHead : List Passenger
  deriving DecidableEq, Repr

/-- The constructor `Flight::Flight`: `bookedSeats(0)`, `passengersHead(nullptr)`. -/
def Flight.new (flightNumber origin destination : String) (capacity : Int)
    (baseTicketPrice : Double) : Flight :=
  { flightNumber := flightNumber, origin := origin, destination := destination,
    capacity := capacity, bookedSeats := 0, baseTicketPrice := baseTicketPrice,
    passengersHead := [] }

/-- `Flight::getAvailableSeats`. -/
def Flight.getAvailableSeats (f : Flight) : Int :=
  f.capacity - f.bookedSeats

/-- `Flight::calculateTicketPrice`. -/
def Flight.calculateTicketPrice (f : Flight) : Double :=
  f.baseTicketPrice

/-- The message of the exception thrown by `Flight::bookSeat`. -/
def noSeatsMessage : String := "No available seats on this flight."

/-- `Flight::bookSeat`: the result of the call and the flight after it. -/
def Flight.bookSeat (f : Flight) (passenger : Passenger) :
    Except BookingException Unit × Flight :=
  if f.bookedSeats < f.capacity then
    (.ok (), { f with bookedSeats := f.bookedSeats + 1,
                      passengersHead := passenger :: f.passengersHead })
  else
    (.error ⟨noSeatsMessage⟩, f)

/-- `Flight::displayPassengers`: the passengers printed, in printing order
(the walk from `passengersHead` along `next`). -/
def Flight.displayPassengers (f : Flight) : List Passenger :=
  f.passengersHead

/-- `class Node` behind a nullable `shared_ptr<Node>`. -/
inductive Node where
  | null
  | mk (flight : Flight) (left right : Node)
  deriving DecidableEq, Repr

/-- The decision procedure for `operator<` on flight numbers: character by
character along the two character lists, the first difference deciding. -/
instance (priority := 2000) decLtString : @DecidableRel String (· < ·) :=
  fun a b => decidable_of_iff (a.toList < b.toList) String.lt_iff_toList_lt.symm

/-- `FlightManager::insertFlight`. -/
def insertFlight : Node → Flight → Node
  | .null, flight => .mk flight .null .null
  | .mk nf left right, flight =>
    if flight.flightNumber < nf.flightNumber then
      .mk nf (insertFlight left flight) right
    else if flight.flightNumber > nf.flightNumber then
      .mk nf left (insertFlight right flight)
    else
      .mk nf left right

/-- `FlightManager::displayFlightsRecursive`: the flights printed, in printing
order (left subtree, the node, right subtree). -/
def displayFlightsRecursive : Node → List Flight
  | .null => []
  | .mk flight left right =>
    displayFlightsRecursive left ++ flight :: displayFlightsRecursive right

/-- `FlightManager::addFlight`, on the root pointer. -/
def addFlight (root : Node) (flightNumber origin destination : String) (capacity : Int)
    (baseTicketPrice : Double) : Node :=
  insertFlight root (Flight.new flightNumber origin destination capacity baseTicketPrice)

/-- How a call of `FlightManager::bookSeat` ends. -/
inductive BookOutcome where
  /-- the seat was booked and the success lines were printed -/
  | booked
  /-- `Flight::bookSeat` threw and the exception left `FlightManager::bookSeat` -/
  | threw (e : BookingException)
  /-- the loop ran off the tree: the line "Flight with number ... not found." -/
  | notFound
  deriving DecidableEq, Repr

/-- `FlightManager::bookSeat`: the descent loop from `current`, giving how the
call ends and the subtree at `current` after it. -/
def bookSeat : Node → String → Passenger → BookOutcome × Node
  | .null, _, _ => (.notFound, .null)
  | .mk flight left right, flightNumber, passenger =>
    if flightNumber = flight.flightNumber then
      match flight.bookSeat passenger with
      | (.ok (), flight') => (.booked, .mk flight' left right)
      | (.error e, flight') => (.threw e, .mk flight' left right)
    else if flightNumber < flight.flightNumber then
      ((bookSeat left flightNumber passenger).1,
        .mk flight (bookSeat left flightNumber passenger).2 right)
    else
      ((bookSeat right flightNumber passenger).1,
        .mk flight left (bookSeat right flightNumber passenger).2)

/-- `FlightManager::displayPassengers`: the descent loop from `current`; the
flight whose `displayPassengers` is called, or `none` for the line
"Flight with number ... not found.". -/
def displayPassengers : Node → String → Option Flight
  | .null, _ => none
  | .mk flight left right, flightNumber =>
    if flightNumber = flight.flightNumber then
      some flight
    else if flightNumber < flight.flightNumber then
      displayPassengers left flightNumber
    else
      displayPassengers right flightNumber

/-- The arguments of one call of `FlightManager::addFlight`. -/
structure AddFlightCall where
  flightNumber : String
  origin : String
  destination : String
  capacity : Int
  baseTicketPrice : Double
  deriving DecidableEq, Repr

/-- The `Flight` that `addFlight` constructs from the arguments of a call. -/
def AddFlightCall.flight (c : AddFlightCall) : Flight :=
  Flight.new c.flightNumber c.origin c.destination c.capacity c.baseTicketPrice

/-- A sequence of `addFlight` calls, first call first, starting from `root`. -/
def addFlights (root : Node) (calls : List AddFlightCall) : Node :=
  calls.foldl
    (fun t c => addFlight t c.flightNumber c.origin c.destination c.capacity c.baseTicketPrice)
    root

/-- A call on the public interface of `FlightManager` that changes the catalog. -/
inductive Op where
  | insert (call : AddFlightCall)
  | book (flightNumber : String) (passenger : Passenger)
  deriving DecidableEq, Repr

/-- The catalog after one call. -/
def Op.apply (root : Node) : Op → Node
  | .insert c => addFlight root c.flightNumber c.origin c.destination c.capacity c.baseTicketPrice
  | .book flightNumber passenger => (bookSeat root flightNumber passenger).2

/-- The catalog after a sequence of calls on the empty catalog
(`FlightManager()` sets `root(nullptr)`). -/
def run (ops : List Op) : Node :=
  ops.foldl Op.apply .null

/-- A sequence of `Flight::bookSeat` attempts on one flight, first attempt
first: the result of every attempt and the flight after the last one. -/
def bookSeats (f : Flight) : List Passenger → List (Except BookingException Unit) × Flight
  | [] => ([], f)
  | p :: ps => ((f.bookSeat p).1 :: (bookSeats (f.bookSeat p).2 ps).1,
                (bookSeats (f.bookSeat p).2 ps).2)

/-! ## Specification vocabulary -/

/-- The flight numbers of a catalog, in traversal order. -/
def Node.keys (t : Node) : List String :=
  (displayFlightsRecursive t).map (·.flightNumber)

/-- The search-tree invariant: at every node the flight numbers of the left
subtree are smaller and those of the right subtree are greater than the
node's. -/
def Node.Ordered : Node → Prop
  | .null => True
  | .mk flight left right =>
    (∀ x ∈ displayFlightsRecursive left, x.flightNumber < flight.flightNumber) ∧
    (∀ x ∈ displayFlightsRecursive right, flight.flightNumber < x.flightNumber) ∧
    left.Ordered ∧ right.Ordered

/-- The invariant can be checked on a concrete tree. -/
instance Node.decidableOrdered : (t : Node) → Decidable t.Ordered
  | .null => isTrue trivial
  | .mk flight left right =>
    have := Node.decidableOrdered left
    have := Node.decidableOrdered right
    show Decidable ((∀ x ∈ displayFlightsRecursive left, x.flightNumber < flight.flightNumber) ∧
      (∀ x ∈ displayFlightsRecursive right, flight.flightNumber < x.flightNumber) ∧
      left.Ordered ∧ right.Ordered) from inferInstance

/-- The shape of a catalog with the flight number at every node, the flights'
other fields forgotten. -/
def Node.keyTree : Node → Tree String
  | .null => .nil
  | .mk flight left right => .node flight.flightNumber left.keyTree right.keyTree

/-- The catalog with the same shape and `g` applied to the flight of every node. -/
def Node.mapFlights (g : Flight → Flight) : Node → Node
  | .null => .null
  | .mk flight left right => .mk (g flight) (left.mapFlights g) (right.mapFlights g)

/-- How `FlightManager::bookSeat` ends when it reaches a flight whose
`bookSeat` gives `r`. -/
def BookOutcome.ofResult : Except BookingException Unit → BookOutcome
  | .ok _ => .booked
  | .error e => .threw e

/-- The passengers of `ps` whose attempt, by the results `rs`, succeeded. -/
def succeeded (ps : List Passenger) (rs : List (Except BookingException Unit)) :
    List Passenger :=
  (ps.zip rs).filterMap fun pr =>
    match pr.2 with
    | .ok _ => some pr.1
    | .error _ => none

/-- The first call of a sequence that carries the flight number `k`. -/
def firstCall : List AddFlightCall → String → Option AddFlightCall
  | [], _ => none
  | c :: cs, k => if c.flightNumber = k then some c else firstCall cs k

/-- The depth of a catalog: the number of nodes on the longest path from the
root down to a leaf. -/
def Node.depth : Node → Nat
  | .null => 0
  | .mk _ left right => 1 + max left.depth right.depth

/-- Every node of the catalog has an empty left child. -/
def Node.LeftEmpty : Node → Prop
  | .null => True
  | .mk _ left right => left = .null ∧ right.LeftEmpty

/-- The catalog that is one chain of right children holding the flights `fs`,
the first at the root. -/
def rightSpine : List Flight → Node
  | [] => .null
  | f :: fs => .mk f .null (rightSpine fs)

/-! ## Sample data

The flights and passengers of the scenarios; the prices are the bit patterns
of `150.0`, `200.0` and `250.0`. -/

/-- Passenger "Alice", $150, cash. -/
def alice : Passenger := ⟨"Alice", ⟨0x4062c00000000000⟩, .CASH⟩

/-- Passenger "Bob", $200, card. -/
def bob : Passenger := ⟨"Bob", ⟨0x4069000000000000⟩, .CARD⟩

/-- Passenger "Carol", $250, cash. -/
def carol : Passenger := ⟨"Carol", ⟨0x406f400000000000⟩, .CASH⟩

/-- The call `addFlight("F001", "New York", "Los Angeles", 100, 150.0)` of `main`. -/
def callF001 : AddFlightCall :=
  ⟨"F001", "New York", "Los Angeles", 100, ⟨0x4062c00000000000⟩⟩

/-- The call `addFlight("F002", "London", "Paris", 120, 200.0)` of `main`. -/
def callF002 : AddFlightCall :=
  ⟨"F002", "London", "Paris", 120, ⟨0x4069000000000000⟩⟩

/-- The call `addFlight("F003", "Tokyo", "Sydney", 150, 250.0)` of `main`. -/
def callF003 : AddFlightCall :=
  ⟨"F003", "Tokyo", "Sydney", 150, ⟨0x406f400000000000⟩⟩

/-- The catalog after inserting "F003", "F001", "F002" in this order. -/
def sampleCatalog : Node :=
  addFlights .null [callF003, callF001, callF002]

/-- A flight "F001" of capacity 1 with its one seat booked by Alice. -/
def fullFlight : Flight :=
  ⟨"F001", "New York", "Los Angeles", 1, 1, ⟨0x4062c00000000000⟩, [alice]⟩

/-- A flight "F002" of capacity 3 with one seat booked by Alice. -/
def openFlight : Flight :=
  ⟨"F002", "London", "Paris", 3, 1, ⟨0x4069000000000000⟩, [alice]⟩

/-- A catalog of the single flight `fullFlight`. -/
def fullCatalog : Node :=
  .mk fullFlight .null .null

/-- The twenty `addFlight` calls of `main`, in the order of the program. -/
def mainCalls : List AddFlightCall :=
  [⟨"F001", "New York", "Los Angeles", 100, ⟨0x4062c00000000000⟩⟩,
    ⟨"F002", "London", "Paris", 120, ⟨0x4069000000000000⟩⟩,
    ⟨"F003", "Tokyo", "Sydney", 150, ⟨0x406f400000000000⟩⟩,
    ⟨"F004", "Los Angeles", "New York", 100, ⟨0x4066800000000000⟩⟩,
    ⟨"F005", "Paris", "London", 120, ⟨0x406b800000000000⟩⟩,
    ⟨"F006", "Sydney", "Tokyo", 150, ⟨0x4070e00000000000⟩⟩,
    ⟨"F007", "Chicago", "Miami", 110, ⟨0x4065400000000000⟩⟩,
    ⟨"F008", "Berlin", "Rome", 130, ⟨0x406a400000000000⟩⟩,
    ⟨"F009", "Moscow", "Beijing", 160, ⟨0x4070400000000000⟩⟩,
    ⟨"F010", "Toronto", "Vancouver", 90, ⟨0x4061800000000000⟩⟩,
    ⟨"F011", "Madrid", "Barcelona", 100, ⟨0x4063600000000000⟩⟩,
    ⟨"F012", "Dubai", "Singapore", 140, ⟨0x406cc00000000000⟩⟩,
    ⟨"F013", "Hong Kong", "Shanghai", 180, ⟨0x4072200000000000⟩⟩,
    ⟨"F014", "Seoul", "Osaka", 120, ⟨0x4068600000000000⟩⟩,
    ⟨"F015", "Bangkok", "Phuket", 130, ⟨0x4069a00000000000⟩⟩,
    ⟨"F016", "Cairo", "Istanbul", 150, ⟨0x406ea00000000000⟩⟩,
    ⟨"F017", "Mexico City", "Cancun", 110, ⟨0x4065e00000000000⟩⟩,
    ⟨"F018", "Sao Paulo", "Rio de Janeiro", 100, ⟨0x4064000000000000⟩⟩,
    ⟨"F019", "Buenos Aires", "Santiago", 120, ⟨0x4069000000000000⟩⟩,
    ⟨"F020", "Amsterdam", "Brussels", 110, ⟨0x4065e00000000000⟩⟩]

/-- A call `addFlight("F001", "New York", "Los Angeles", -1, 150.0)`: a
capacity below zero, which `addFlight` takes as it takes any `int`. -/
def negativeCall : AddFlightCall :=
  ⟨"F001", "New York", "Los Angeles", -1, ⟨0x4062c00000000000⟩⟩

/-- A call `addFlight("F001", "Tokyo", "Sydney", 150, 250.0)`: the number of
`callF001` with other arguments. -/
def callF001Again : AddFlightCall :=
  ⟨"F001", "Tokyo", "Sydney", 150, ⟨0x406f400000000000⟩⟩

/-! ## One flight: `Flight::bookSeat` -/

theorem Flight.bookSeat_of_lt (f : Flight) (p : Passenger) (h : f.bookedSeats < f.capacity) :
    f.bookSeat p = (.ok (), { f with bookedSeats := f.bookedSeats + 1,
                                     passengersHead := p :: f.passengersHead }) := by
  simp [Flight.bookSeat, h]

theorem Flight.bookSeat_of_not_lt (f : Flight) (p : Passenger)
    (h : ¬ f.bookedSeats < f.capacity) :
    f.bookSeat p = (.error ⟨noSeatsMessage⟩, f) := by
  simp [Flight.bookSeat, h]

theorem Flight.bookSeat_flightNumber (f : Flight) (p : Passenger) :
    (f.bookSeat p).2.flightNumber = f.flightNumber := by
  unfold Flight.bookSeat
  split_ifs <;> rfl

theorem Flight.bookSeat_capacity (f : Flight) (p : Passenger) :
    (f.bookSeat p).2.capacity = f.capacity := by
  unfold Flight.bookSeat
  split_ifs <;> rfl

theorem bookSeats_capacity (ps : List Passenger) (f : Flight) :
    (bookSeats f ps).2.capacity = f.capacity := by
  induction ps generalizing f with
  | nil => rfl
  | cons p ps ih => simp [bookSeats, ih, Flight.bookSeat_capacity]

theorem bookSeats_length (ps : List Passenger) (f : Flight) :
    (bookSeats f ps).1.length = ps.length := by
  induction ps generalizing f with
  | nil => rfl
  | cons p ps ih => simp [bookSeats, ih]

/-- The counter after a run of attempts, from any state within capacity. -/
theorem bookSeats_bookedSeats (ps : List Passenger) (f : Flight)
    (h : f.bookedSeats ≤ f.capacity) :
    (bookSeats f ps).2.bookedSeats = min (f.bookedSeats + ps.length) f.capacity := by
  induction ps generalizing f with
  | nil => simp [bookSeats, h]
  | cons p ps ih =>
    by_cases hlt : f.bookedSeats < f.capacity
    · have h1 : ((f.bookSeat p).2).bookedSeats ≤ ((f.bookSeat p).2).capacity := by
        rw [Flight.bookSeat_of_lt f p hlt]; simp; omega
      simp only [bookSeats]
      rw [ih _ h1, Flight.bookSeat_of_lt f p hlt]
      simp only [List.length_cons, Nat.cast_add, Nat.cast_one]
      omega
    · simp only [bookSeats]
      rw [Flight.bookSeat_of_not_lt f p hlt, ih _ h]
      simp only [List.length_cons, Nat.cast_add, Nat.cast_one]
      omega

/-- The result of the attempt at position `i` of a run, from any state. -/
theorem bookSeats_result (ps : List Passenger) (f : Flight) (i : Nat) (hi : i < ps.length) :
    (bookSeats f ps).1[i]? =
      some (if f.bookedSeats + i < f.capacity then .ok () else .error ⟨noSeatsMessage⟩) := by
  induction ps generalizing f i with
  | nil => simp at hi
  | cons p ps ih =>
    by_cases hlt : f.bookedSeats < f.capacity
    · cases i with
      | zero => simp [bookSeats, Flight.bookSeat_of_lt f p hlt, hlt]
      | succ j =>
        have hj : j < ps.length := by simpa using hi
        simp only [bookSeats, List.getElem?_cons_succ]
        rw [ih _ j hj, Flight.bookSeat_of_lt f p hlt]
        simp only [Nat.cast_add, Nat.cast_one]
        congr 2
        apply propext
        constructor <;> intro h <;> omega
    · cases i with
      | zero => simp [bookSeats, Flight.bookSeat_of_not_lt f p hlt, hlt]
      | succ j =>
        have hj : j < ps.length := by simpa using hi
        simp only [bookSeats, List.getElem?_cons_succ]
        rw [Flight.bookSeat_of_not_lt f p hlt, ih _ j hj]
        have h1 : ¬ f.bookedSeats + (j : Int) < f.capacity := by omega
        have h2 : ¬ f.bookedSeats + ((j + 1 : Nat) : Int) < f.capacity := by
          push_cast; omega
        rw [if_neg h1, if_neg h2]

/-- The roster after a run of attempts, from any state: the passengers whose
attempt succeeded, newest first, in front of the roster before the run. -/
theorem bookSeats_roster (ps : List Passenger) (f : Flight) :
    (bookSeats f ps).2.passengersHead
      = (succeeded ps (bookSeats f ps).1).reverse ++ f.passengersHead := by
  induction ps generalizing f with
  | nil => simp [bookSeats, succeeded]
  | cons p ps ih =>
    by_cases hlt : f.bookedSeats < f.capacity
    · simp only [bookSeats]
      rw [ih]
      simp [succeeded, Flight.bookSeat_of_lt f p hlt]
    · simp only [bookSeats]
      rw [ih]
      simp [succeeded, Flight.bookSeat_of_not_lt f p hlt]

/-- The roster after a run of attempts in closed form: as many passengers as
there were free seats, newest first. -/
theorem bookSeats_roster_take (ps : List Passenger) (f : Flight) :
    (bookSeats f ps).2.passengersHead
      = (ps.take (f.capacity - f.bookedSeats).toNat).reverse ++ f.passengersHead := by
  induction ps generalizing f with
  | nil => simp [bookSeats]
  | cons p ps ih =>
    by_cases hlt : f.bookedSeats < f.capacity
    · simp only [bookSeats]
      rw [ih, Flight.bookSeat_of_lt f p hlt]
      obtain ⟨n, hn⟩ : ∃ n : Nat, (f.capacity - f.bookedSeats).toNat = n + 1 :=
        ⟨(f.capacity - f.bookedSeats).toNat - 1, by omega⟩
      have hn' : (f.capacity - (f.bookedSeats + 1)).toNat = n := by omega
      simp [hn, hn']
    · simp only [bookSeats]
      rw [ih, Flight.bookSeat_of_not_lt f p hlt]
      have h0 : (f.capacity - f.bookedSeats).toNat = 0 := by omega
      simp [h0]

/-! ## The catalog: traversal, invariant, insertion -/

theorem displayFlightsRecursive_mk (g : Flight) (l r : Node) :
    displayFlightsRecursive (.mk g l r)
      = displayFlightsRecursive l ++ g :: displayFlightsRecursive r := rfl

theorem Node.keys_null : Node.null.keys = [] := rfl

theorem Node.keys_mk (g : Flight) (l r : Node) :
    (Node.mk g l r).keys = l.keys ++ g.flightNumber :: r.keys := by
  simp [Node.keys, displayFlightsRecursive]

theorem Node.mem_keys {t : Node} {k : String} :
    k ∈ t.keys ↔ ∃ x ∈ displayFlightsRecursive t, x.flightNumber = k := by
  simp [Node.keys]

theorem Node.mem_keys_of_mem {t : Node} {x : Flight} (h : x ∈ displayFlightsRecursive t) :
    x.flightNumber ∈ t.keys :=
  Node.mem_keys.mpr ⟨x, h, rfl⟩

theorem Node.ordered_null : Node.null.Ordered := trivial

theorem Node.ordered_mk_iff (g : Flight) (l r : Node) :
    (Node.mk g l r).Ordered ↔
      (∀ k ∈ l.keys, k < g.flightNumber) ∧ (∀ k ∈ r.keys, g.flightNumber < k) ∧
        l.Ordered ∧ r.Ordered := by
  simp [Node.Ordered, Node.keys]

/-- Insertion adds at most the new flight to the traversal. -/
theorem mem_insertFlight {t : Node} {f x : Flight}
    (h : x ∈ displayFlightsRecursive (insertFlight t f)) :
    x ∈ displayFlightsRecursive t ∨ x = f := by
  induction t with
  | null => simpa [insertFlight, displayFlightsRecursive] using h
  | mk g l r ihl ihr =>
    unfold insertFlight at h
    split_ifs at h
    · simp only [displayFlightsRecursive_mk, List.mem_append, List.mem_cons] at h ⊢
      rcases h with h | h | h
      · rcases ihl h with h | h
        · exact Or.inl (Or.inl h)
        · exact Or.inr h
      · exact Or.inl (Or.inr (Or.inl h))
      · exact Or.inl (Or.inr (Or.inr h))
    · simp only [displayFlightsRecursive_mk, List.mem_append, List.mem_cons] at h ⊢
      rcases h with h | h | h
      · exact Or.inl (Or.inl h)
      · exact Or.inl (Or.inr (Or.inl h))
      · rcases ihr h with h | h
        · exact Or.inl (Or.inr (Or.inr h))
        · exact Or.inr h
    · exact Or.inl h

theorem mem_keys_insertFlight {t : Node} {f : Flight} {k : String}
    (h : k ∈ (insertFlight t f).keys) : k ∈ t.keys ∨ k = f.flightNumber := by
  obtain ⟨x, hx, rfl⟩ := Node.mem_keys.mp h
  rcases mem_insertFlight hx with h | h
  · exact Or.inl (Node.mem_keys_of_mem h)
  · exact Or.inr (by rw [h])

/-- Insertion keeps the search-tree invariant. -/
theorem ordered_insertFlight {t : Node} (ht : t.Ordered) (f : Flight) :
    (insertFlight t f).Ordered := by
  induction t with
  | null => simp [insertFlight, Node.Ordered, displayFlightsRecursive]
  | mk g l r ihl ihr =>
    obtain ⟨hl, hr, hol, hor⟩ := (Node.ordered_mk_iff g l r).mp ht
    unfold insertFlight
    split_ifs with h1 h2
    · refine (Node.ordered_mk_iff _ _ _).mpr ⟨?_, hr, ihl hol, hor⟩
      intro k hk
      rcases mem_keys_insertFlight hk with hk | hk
      · exact hl k hk
      · rw [hk]; exact h1
    · refine (Node.ordered_mk_iff _ _ _).mpr ⟨hl, ?_, hol, ihr hor⟩
      intro k hk
      rcases mem_keys_insertFlight hk with hk | hk
      · exact hr k hk
      · rw [hk]; exact h2
    · exact ht

theorem ordered_addFlights {t : Node} (ht : t.Ordered) (calls : List AddFlightCall) :
    (addFlights t calls).Ordered := by
  induction calls generalizing t with
  | nil => exact ht
  | cons c cs ih => exact ih (ordered_insertFlight ht _)

/-- Under the invariant the traversal is strictly ascending. -/
theorem pairwise_keys_of_ordered {t : Node} (ht : t.Ordered) :
    t.keys.Pairwise (· < ·) := by
  induction t with
  | null => simp [Node.keys, displayFlightsRecursive]
  | mk g l r ihl ihr =>
    obtain ⟨hl, hr, hol, hor⟩ := (Node.ordered_mk_iff g l r).mp ht
    rw [Node.keys_mk, List.pairwise_append]
    refine ⟨ihl hol, List.pairwise_cons.mpr ⟨hr, ihr hor⟩, ?_⟩
    intro a ha b hb
    rcases List.mem_cons.mp hb with hb | hb
    · rw [hb]; exact hl a ha
    · exact lt_trans (hl a ha) (hr b hb)

/-- Under the invariant a flight number that is in the tree is inserted nowhere. -/
theorem insertFlight_of_mem_keys {t : Node} (ht : t.Ordered) (f : Flight)
    (h : f.flightNumber ∈ t.keys) : insertFlight t f = t := by
  induction t with
  | null => simp [Node.keys, displayFlightsRecursive] at h
  | mk g l r ihl ihr =>
    obtain ⟨hl, hr, hol, hor⟩ := (Node.ordered_mk_iff g l r).mp ht
    rw [Node.keys_mk, List.mem_append, List.mem_cons] at h
    unfold insertFlight
    split_ifs with h1 h2
    · rcases h with h | h | h
      · rw [ihl hol h]
      · exact absurd h1 (by rw [h]; exact lt_irrefl _)
      · exact absurd (lt_trans h1 (hr _ h)) (lt_irrefl _)
    · rcases h with h | h | h
      · exact absurd (lt_trans h2 (hl _ h)) (lt_irrefl _)
      · exact absurd h2 (by rw [h]; exact lt_irrefl _)
      · rw [ihr hor h]
    · rfl

/-! ## The catalog: the lookup descent -/

theorem insertFlight_mk_lt (n : Flight) (l r : Node) (f : Flight)
    (h : f.flightNumber < n.flightNumber) :
    insertFlight (.mk n l r) f = .mk n (insertFlight l f) r := by
  simp only [insertFlight, if_pos h]

theorem insertFlight_mk_gt (n : Flight) (l r : Node) (f : Flight)
    (h : n.flightNumber < f.flightNumber) :
    insertFlight (.mk n l r) f = .mk n l (insertFlight r f) := by
  have h' : f.flightNumber > n.flightNumber := h
  simp only [insertFlight, if_neg (lt_asymm h), if_pos h']

theorem insertFlight_mk_eq (n : Flight) (l r : Node) (f : Flight)
    (h : f.flightNumber = n.flightNumber) :
    insertFlight (.mk n l r) f = .mk n l r := by
  have h1 : ¬ f.flightNumber < n.flightNumber := by rw [h]; exact lt_irrefl _
  have h2 : ¬ f.flightNumber > n.flightNumber := by rw [h]; exact lt_irrefl _
  simp only [insertFlight, if_neg h1, if_neg h2]

theorem displayPassengers_mk_eq (n : Flight) (l r : Node) :
    displayPassengers (.mk n l r) n.flightNumber = some n := by
  simp only [displayPassengers, if_pos]

theorem displayPassengers_mk_lt (n : Flight) (l r : Node) (k : String)
    (h : k < n.flightNumber) :
    displayPassengers (.mk n l r) k = displayPassengers l k := by
  simp only [displayPassengers, if_neg (ne_of_lt h), if_pos h]

theorem displayPassengers_mk_gt (n : Flight) (l r : Node) (k : String)
    (h : n.flightNumber < k) :
    displayPassengers (.mk n l r) k = displayPassengers r k := by
  simp only [displayPassengers, if_neg (ne_of_gt h), if_neg (lt_asymm h)]

/-- The descent of `displayPassengers` after one insertion, on any tree: what
it found before, or else the new flight when its number is the one looked up. -/
theorem displayPassengers_insertFlight (t : Node) (g : Flight) (k : String) :
    displayPassengers (insertFlight t g) k
      = (displayPassengers t k).or (if g.flightNumber = k then some g else none) := by
  induction t with
  | null =>
    by_cases h : g.flightNumber = k
    · rw [← h]
      simp [insertFlight, displayPassengers]
    · have h' : ¬ k = g.flightNumber := fun e => h e.symm
      simp [insertFlight, displayPassengers, h, h']
  | mk n l r ihl ihr =>
    rcases lt_trichotomy k n.flightNumber with hk | hk | hk
    · rcases lt_trichotomy g.flightNumber n.flightNumber with hg | hg | hg
      · rw [insertFlight_mk_lt n l r g hg, displayPassengers_mk_lt _ _ _ k hk,
          displayPassengers_mk_lt _ _ _ k hk, ihl]
      · rw [insertFlight_mk_eq n l r g hg, if_neg (by rw [hg]; exact ne_of_gt hk),
          Option.or_none]
      · rw [insertFlight_mk_gt n l r g hg, displayPassengers_mk_lt _ _ _ k hk,
          displayPassengers_mk_lt _ _ _ k hk, if_neg (ne_of_gt (lt_trans hk hg)),
          Option.or_none]
    · subst hk
      rcases lt_trichotomy g.flightNumber n.flightNumber with hg | hg | hg
      · rw [insertFlight_mk_lt n l r g hg, displayPassengers_mk_eq, displayPassengers_mk_eq,
          Option.or_some]
      · rw [insertFlight_mk_eq n l r g hg, displayPassengers_mk_eq, Option.or_some]
      · rw [insertFlight_mk_gt n l r g hg, displayPassengers_mk_eq, displayPassengers_mk_eq,
          Option.or_some]
    · rcases lt_trichotomy g.flightNumber n.flightNumber with hg | hg | hg
      · rw [insertFlight_mk_lt n l r g hg, displayPassengers_mk_gt _ _ _ k hk,
          displayPassengers_mk_gt _ _ _ k hk, if_neg (ne_of_lt (lt_trans hg hk)),
          Option.or_none]
      · rw [insertFlight_mk_eq n l r g hg, if_neg (by rw [hg]; exact ne_of_lt hk),
          Option.or_none]
      · rw [insertFlight_mk_gt n l r g hg, displayPassengers_mk_gt _ _ _ k hk,
          displayPassengers_mk_gt _ _ _ k hk, ihr]

/-- The descent of `displayPassengers` after a sequence of insertions, on any
tree: what it found before, or else the flight of the first call that carried
the number looked up. -/
theorem displayPassengers_addFlights (calls : List AddFlightCall) (t : Node) (k : String) :
    displayPassengers (addFlights t calls) k
      = (displayPassengers t k).or
          ((calls.find? fun c => c.flightNumber = k).map AddFlightCall.flight) := by
  induction calls generalizing t with
  | nil => simp [addFlights, Option.or_none]
  | cons c cs ih =>
    have hstep : addFlights t (c :: cs) = addFlights (insertFlight t c.flight) cs := rfl
    have hkey : c.flight.flightNumber = c.flightNumber := rfl
    rw [hstep, ih, displayPassengers_insertFlight, hkey]
    cases displayPassengers t k with
    | some f => simp
    | none =>
      by_cases hc : c.flightNumber = k
      · simp [hc]
      · simp [hc]

/-- A flight found by the descent is a flight of the tree, with the number
looked up. -/
theorem mem_of_displayPassengers {t : Node} {k : String} {f : Flight}
    (h : displayPassengers t k = some f) :
    f ∈ displayFlightsRecursive t ∧ f.flightNumber = k := by
  induction t with
  | null => simp [displayPassengers] at h
  | mk n l r ihl ihr =>
    unfold displayPassengers at h
    rw [displayFlightsRecursive_mk, List.mem_append, List.mem_cons]
    split_ifs at h with h1 h2
    · obtain rfl : n = f := by simpa using h
      exact ⟨Or.inr (Or.inl rfl), h1.symm⟩
    · exact ⟨Or.inl (ihl h).1, (ihl h).2⟩
    · exact ⟨Or.inr (Or.inr (ihr h).1), (ihr h).2⟩

/-- Under the invariant the descent finds every flight of the tree. -/
theorem displayPassengers_of_mem {t : Node} (ht : t.Ordered) {f : Flight}
    (h : f ∈ displayFlightsRecursive t) : displayPassengers t f.flightNumber = some f := by
  induction t with
  | null => simp [displayFlightsRecursive] at h
  | mk n l r ihl ihr =>
    obtain ⟨hl, hr, hol, hor⟩ := (Node.ordered_mk_iff n l r).mp ht
    rw [displayFlightsRecursive_mk, List.mem_append, List.mem_cons] at h
    unfold displayPassengers
    rcases h with h | h | h
    · have hlt := hl _ (Node.mem_keys_of_mem h)
      rw [if_neg (ne_of_lt hlt), if_pos hlt]
      exact ihl hol h
    · rw [h, if_pos rfl]
    · have hgt := hr _ (Node.mem_keys_of_mem h)
      rw [if_neg (ne_of_gt hgt), if_neg (lt_asymm hgt)]
      exact ihr hor h

/-- The descent runs off the tree when the number is at no node. -/
theorem displayPassengers_of_not_mem_keys {t : Node} {k : String} (h : k ∉ t.keys) :
    displayPassengers t k = none := by
  cases hd : displayPassengers t k with
  | none => rfl
  | some f =>
    obtain ⟨hm, rfl⟩ := mem_of_displayPassengers hd
    exact absurd (Node.mem_keys_of_mem hm) h

/-! ## The catalog: booking -/

theorem bookSeat_mk_eq (g : Flight) (l r : Node) (p : Passenger) :
    bookSeat (.mk g l r) g.flightNumber p
      = (BookOutcome.ofResult (g.bookSeat p).1, .mk (g.bookSeat p).2 l r) := by
  simp only [bookSeat, if_pos]
  generalize g.bookSeat p = res
  rcases res with ⟨_ | _, g'⟩ <;> rfl

theorem bookSeat_mk_lt (g : Flight) (l r : Node) (k : String) (p : Passenger)
    (h : k < g.flightNumber) :
    bookSeat (.mk g l r) k p = ((bookSeat l k p).1, .mk g (bookSeat l k p).2 r) := by
  simp only [bookSeat, if_neg (ne_of_lt h), if_pos h]

theorem bookSeat_mk_gt (g : Flight) (l r : Node) (k : String) (p : Passenger)
    (h : g.flightNumber < k) :
    bookSeat (.mk g l r) k p = ((bookSeat r k p).1, .mk g l (bookSeat r k p).2) := by
  simp only [bookSeat, if_neg (ne_of_gt h), if_neg (lt_asymm h)]

/-- Booking keeps the shape of the tree and the flight number at every node. -/
theorem keyTree_bookSeat (t : Node) (k : String) (p : Passenger) :
    (bookSeat t k p).2.keyTree = t.keyTree := by
  induction t with
  | null => rfl
  | mk g l r ihl ihr =>
    by_cases hk : k = g.flightNumber
    · rw [hk, bookSeat_mk_eq]
      simp [Node.keyTree, Flight.bookSeat_flightNumber]
    · by_cases hlt : k < g.flightNumber
      · rw [bookSeat_mk_lt g l r k p hlt]
        simp [Node.keyTree, ihl]
      · have hgt : g.flightNumber < k :=
          lt_of_le_of_ne (not_lt.mp hlt) (fun e => hk e.symm)
        rw [bookSeat_mk_gt g l r k p hgt]
        simp [Node.keyTree, ihr]

/-- The flight numbers in traversal order are read off the key tree. -/
theorem Node.keys_of_keyTree {t t' : Node} (h : t.keyTree = t'.keyTree) : t.keys = t'.keys := by
  induction t generalizing t' with
  | null =>
    cases t' with
    | null => rfl
    | mk g l r => simp [Node.keyTree] at h
  | mk g l r ihl ihr =>
    cases t' with
    | null => simp [Node.keyTree] at h
    | mk g' l' r' =>
      simp only [Node.keyTree, Tree.node.injEq] at h
      rw [Node.keys_mk, Node.keys_mk, ihl h.2.1, ihr h.2.2, h.1]

/-- The invariant is a property of the key tree. -/
theorem ordered_of_keyTree {t t' : Node} (h : t.keyTree = t'.keyTree) (ht : t.Ordered) :
    t'.Ordered := by
  induction t generalizing t' with
  | null =>
    cases t' with
    | null => exact ht
    | mk g l r => simp [Node.keyTree] at h
  | mk g l r ihl ihr =>
    cases t' with
    | null => simp [Node.keyTree] at h
    | mk g' l' r' =>
      simp only [Node.keyTree, Tree.node.injEq] at h
      obtain ⟨hl, hr, hol, hor⟩ := (Node.ordered_mk_iff g l r).mp ht
      refine (Node.ordered_mk_iff _ _ _).mpr ⟨?_, ?_, ihl h.2.1 hol, ihr h.2.2 hor⟩
      · rw [← Node.keys_of_keyTree h.2.1, ← h.1]; exact hl
      · rw [← Node.keys_of_keyTree h.2.2, ← h.1]; exact hr

/-- Booking keeps the search-tree invariant. -/
theorem ordered_bookSeat {t : Node} (ht : t.Ordered) (k : String) (p : Passenger) :
    (bookSeat t k p).2.Ordered :=
  ordered_of_keyTree (keyTree_bookSeat t k p).symm ht

theorem ordered_apply {t : Node} (ht : t.Ordered) (op : Op) : (op.apply t).Ordered := by
  cases op with
  | insert c => exact ordered_insertFlight ht _
  | book k p => exact ordered_bookSeat ht k p

theorem Node.mapFlights_of_fix {t : Node} {g : Flight → Flight}
    (h : ∀ x ∈ displayFlightsRecursive t, g x = x) : t.mapFlights g = t := by
  induction t with
  | null => rfl
  | mk n l r ihl ihr =>
    simp only [displayFlightsRecursive_mk, List.mem_append, List.mem_cons] at h
    simp only [Node.mapFlights]
    rw [ihl (fun x hx => h x (Or.inl hx)), ihr (fun x hx => h x (Or.inr (Or.inr hx))),
      h n (Or.inr (Or.inl rfl))]

/-- Under the invariant, booking on the number of a flight of the tree is
`Flight::bookSeat` on that flight, and the tree changes at that flight only. -/
theorem bookSeat_of_mem {t : Node} (ht : t.Ordered) {f : Flight}
    (h : f ∈ displayFlightsRecursive t) (p : Passenger) :
    bookSeat t f.flightNumber p
      = (BookOutcome.ofResult (f.bookSeat p).1,
         t.mapFlights fun x => if x.flightNumber = f.flightNumber then (f.bookSeat p).2 else x) := by
  induction t with
  | null => simp [displayFlightsRecursive] at h
  | mk n l r ihl ihr =>
    obtain ⟨hl, hr, hol, hor⟩ := (Node.ordered_mk_iff n l r).mp ht
    have fixl : ∀ (k : String) (v : Flight), n.flightNumber ≤ k →
        l.mapFlights (fun x => if x.flightNumber = k then v else x) = l := by
      intro k v hk
      apply Node.mapFlights_of_fix
      intro x hx
      have := hl _ (Node.mem_keys_of_mem hx)
      rw [if_neg (ne_of_lt (lt_of_lt_of_le this hk))]
    have fixr : ∀ (k : String) (v : Flight), k ≤ n.flightNumber →
        r.mapFlights (fun x => if x.flightNumber = k then v else x) = r := by
      intro k v hk
      apply Node.mapFlights_of_fix
      intro x hx
      have := hr _ (Node.mem_keys_of_mem hx)
      rw [if_neg (ne_of_gt (lt_of_le_of_lt hk this))]
    rw [displayFlightsRecursive_mk, List.mem_append, List.mem_cons] at h
    rcases h with h | h | h
    · have hlt := hl _ (Node.mem_keys_of_mem h)
      rw [bookSeat_mk_lt n l r _ p hlt, ihl hol h]
      simp only [Node.mapFlights, if_neg (ne_of_gt hlt), fixr _ _ (le_of_lt hlt)]
    · subst h
      rw [bookSeat_mk_eq]
      simp only [Node.mapFlights, if_pos, fixl _ _ (le_refl _), fixr _ _ (le_refl _)]
    · have hgt := hr _ (Node.mem_keys_of_mem h)
      rw [bookSeat_mk_gt n l r _ p hgt, ihr hor h]
      simp only [Node.mapFlights, if_neg (ne_of_lt hgt), fixl _ _ (le_of_lt hgt)]

/-- Booking on a number that is at no node runs off the tree and changes nothing. -/
theorem bookSeat_of_not_mem_keys {t : Node} {k : String} (h : k ∉ t.keys) (p : Passenger) :
    bookSeat t k p = (.notFound, t) := by
  induction t with
  | null => rfl
  | mk n l r ihl ihr =>
    rw [Node.keys_mk, List.mem_append, List.mem_cons] at h
    push_neg at h
    by_cases hlt : k < n.flightNumber
    · rw [bookSeat_mk_lt n l r k p hlt, ihl h.1]
    · have hgt : n.flightNumber < k := lt_of_le_of_ne (not_lt.mp hlt) (fun e => h.2.1 e.symm)
      rw [bookSeat_mk_gt n l r k p hgt, ihr h.2.2]

theorem displayPassengers_mapFlights (t : Node) (g : Flight → Flight)
    (hg : ∀ x, (g x).flightNumber = x.flightNumber) (k : String) :
    displayPassengers (t.mapFlights g) k = (displayPassengers t k).map g := by
  induction t with
  | null => rfl
  | mk n l r ihl ihr =>
    simp only [Node.mapFlights, displayPassengers, hg]
    split_ifs
    · rfl
    · exact ihl
    · exact ihr

/-- Under the invariant, after booking on the number of a flight of the tree
the descent finds the flight as `Flight::bookSeat` left it. -/
theorem displayPassengers_bookSeat_self {t : Node} (ht : t.Ordered) {f : Flight}
    (h : f ∈ displayFlightsRecursive t) (p : Passenger) :
    displayPassengers (bookSeat t f.flightNumber p).2 f.flightNumber = some (f.bookSeat p).2 := by
  rw [bookSeat_of_mem ht h p, displayPassengers_mapFlights, displayPassengers_of_mem ht h]
  · simp
  · intro x
    split_ifs with hx
    · rw [Flight.bookSeat_flightNumber, hx]
    · rfl

/-- Under the invariant, after booking on the number of a flight of the tree
the descent for any other number finds what it found before. -/
theorem displayPassengers_bookSeat_other {t : Node} (ht : t.Ordered) {f : Flight}
    (h : f ∈ displayFlightsRecursive t) (p : Passenger) (k : String)
    (hk : k ≠ f.flightNumber) :
    displayPassengers (bookSeat t f.flightNumber p).2 k = displayPassengers t k := by
  rw [bookSeat_of_mem ht h p, displayPassengers_mapFlights]
  · cases hd : displayPassengers t k with
    | none => rfl
    | some x =>
      have hx : x.flightNumber ≠ f.flightNumber := by
        rw [(mem_of_displayPassengers hd).2]; exact hk
      simp [hx]
  · intro x
    split_ifs with hx
    · rw [Flight.bookSeat_flightNumber, hx]
    · rfl

/-! ## The claims -/

/-- C1 (lookup correctness).  After any sequence of `addFlight` calls with
pairwise distinct flight numbers on the empty catalog, the descent of
`FlightManager::displayPassengers` for the number of any call of the sequence
reaches a node, and that node holds the flight constructed from the arguments
of that call (no seat booked, empty roster); the descent of
`FlightManager::bookSeat` reaches the same flight: the call ends as
`Flight::bookSeat` on that flight does, and afterwards the node holds that
flight as `Flight::bookSeat` left it. -/
theorem lookup_correct (calls : List AddFlightCall)
    (hd : (calls.map fun c => c.flightNumber).Nodup) (c : AddFlightCall) (hc : c ∈ calls)
    (p : Passenger) :
    displayPassengers (addFlights .null calls) c.flightNumber
        = some { flightNumber := c.flightNumber, origin := c.origin,
                 destination := c.destination, capacity := c.capacity, bookedSeats := 0,
                 baseTicketPrice := c.baseTicketPrice, passengersHead := [] } ∧
      (bookSeat (addFlights .null calls) c.flightNumber p).1
        = BookOutcome.ofResult (c.flight.bookSeat p).1 ∧
      displayPassengers (bookSeat (addFlights .null calls) c.flightNumber p).2 c.flightNumber
        = some (c.flight.bookSeat p).2 := by
  have hfind : (calls.find? fun x => x.flightNumber = c.flightNumber) = some c := by
    clear p
    induction calls with
    | nil => simp at hc
    | cons a as ih =>
      rw [List.map_cons, List.nodup_cons] at hd
      rcases List.mem_cons.mp hc with h | h
      · subst h; simp
      · have hne : a.flightNumber ≠ c.flightNumber := fun e =>
          hd.1 (by rw [e]; exact List.mem_map_of_mem _ h)
        rw [List.find?_cons_of_neg _ (by simpa using hne)]
        exact ih hd.2 h
  have hlook : displayPassengers (addFlights .null calls) c.flightNumber = some c.flight := by
    rw [displayPassengers_addFlights, hfind]
    rfl
  have hord : (addFlights .null calls).Ordered := ordered_addFlights Node.ordered_null calls
  have hmem := (mem_of_displayPassengers hlook).1
  have hkey : c.flight.flightNumber = c.flightNumber := rfl
  refine ⟨hlook, ?_, ?_⟩
  · rw [← hkey, bookSeat_of_mem hord hmem p]
  · rw [← hkey]
    exact displayPassengers_bookSeat_self hord hmem p

theorem lookup_correct_witness :
    ([callF003, callF001, callF002].map fun c => c.flightNumber).Nodup ∧
      callF001 ∈ [callF003, callF001, callF002] ∧
      displayPassengers (addFlights .null [callF003, callF001, callF002]) "F001"
        = some ⟨"F001", "New York", "Los Angeles", 100, 0, ⟨0x4062c00000000000⟩, []⟩ :=
  ⟨by decide, by decide,
    (lookup_correct [callF003, callF001, callF002] (by decide) callF001 (by decide) alice).1⟩

/-- C2 (in-order invariant).  After any sequence of `addFlight` calls on the
empty catalog, duplicates allowed, the flight numbers printed by
`displayFlightsRecursive` are strictly ascending: each is less than the next
one, and so each is less than every later one. -/
theorem inorder_strictly_ascending (calls : List AddFlightCall) :
    List.Chain' (· < ·)
        ((displayFlightsRecursive (addFlights .null calls)).map fun f => f.flightNumber) ∧
      List.Pairwise (· < ·)
        ((displayFlightsRecursive (addFlights .null calls)).map fun f => f.flightNumber) := by
  have h := pairwise_keys_of_ordered (ordered_addFlights Node.ordered_null calls)
  exact ⟨h.chain', h⟩

/-- C3 (search-tree invariant).  Every catalog reached from the empty catalog
by a sequence of `addFlight` and `FlightManager::bookSeat` calls, in any order,
satisfies at every node: the flight numbers of the left subtree are less and
those of the right subtree are greater than the node's. -/
theorem search_tree_invariant (ops : List Op) : (run ops).Ordered := by
  have h : ∀ (t : Node), t.Ordered → (ops.foldl Op.apply t).Ordered := by
    induction ops with
    | nil => exact fun t ht => ht
    | cons op ops ih => exact fun t ht => ih _ (ordered_apply ht op)
  exact h .null Node.ordered_null

/-- C4 (duplicate-key no-op).  On a catalog that satisfies the search-tree
invariant, `addFlight` with a flight number that some flight of the catalog
already has returns the very same catalog, whatever the other arguments: the
shape and every flight with all its fields, roster included, are as before. -/
theorem addFlight_duplicate (t : Node) (ht : t.Ordered) (f : Flight)
    (hf : f ∈ displayFlightsRecursive t) (origin destination : String) (capacity : Int)
    (baseTicketPrice : Double) :
    addFlight t f.flightNumber origin destination capacity baseTicketPrice = t ∧
      displayPassengers
        (addFlight t f.flightNumber origin destination capacity baseTicketPrice) f.flightNumber
        = some f :=
  have h : addFlight t f.flightNumber origin destination capacity baseTicketPrice = t :=
    insertFlight_of_mem_keys ht (Flight.new f.flightNumber origin destination capacity
      baseTicketPrice) (show f.flightNumber ∈ t.keys from Node.mem_keys_of_mem hf)
  ⟨h, by rw [h]; exact displayPassengers_of_mem ht hf⟩

theorem addFlight_duplicate_witness :
    fullCatalog.Ordered ∧ fullFlight ∈ displayFlightsRecursive fullCatalog ∧
      addFlight fullCatalog "F001" "Tokyo" "Sydney" 150 ⟨0x406f400000000000⟩ = fullCatalog :=
  ⟨by decide, by decide,
    (addFlight_duplicate fullCatalog (by decide) fullFlight (by decide)
      "Tokyo" "Sydney" 150 ⟨0x406f400000000000⟩).1⟩

/-- C5 (full-flight rejection is atomic).  On a flight with
`bookedSeats == capacity`, `Flight::bookSeat` throws the `BookingException`
"No available seats on this flight." and the flight after the call is the
flight before it: `bookedSeats` and the roster are what they were. -/
theorem bookSeat_full (f : Flight) (p : Passenger) (h : f.bookedSeats = f.capacity) :
    (f.bookSeat p).1 = .error ⟨"No available seats on this flight."⟩ ∧
      (f.bookSeat p).2 = f ∧
      (f.bookSeat p).2.bookedSeats = f.bookedSeats ∧
      (f.bookSeat p).2.displayPassengers = f.displayPassengers := by
  have hn : ¬ f.bookedSeats < f.capacity := by omega
  rw [Flight.bookSeat_of_not_lt f p hn]
  exact ⟨rfl, rfl, rfl, rfl⟩

theorem bookSeat_full_witness :
    fullFlight.bookedSeats = fullFlight.capacity ∧
      (fullFlight.bookSeat bob).1 = .error ⟨"No available seats on this flight."⟩ ∧
      (fullFlight.bookSeat bob).2 = fullFlight :=
  ⟨by decide, (bookSeat_full fullFlight bob (by decide)).1,
    (bookSeat_full fullFlight bob (by decide)).2.1⟩

/-- C6 (successful booking).  On a flight with `0 <= bookedSeats < capacity`,
`Flight::bookSeat` returns normally, `bookedSeats` grows by exactly 1 (and
stays within `capacity`, so within `int`), the roster is the passenger
followed by the old roster in its old order, and the flight number, origin,
destination, capacity and base price are unchanged. -/
theorem bookSeat_available (f : Flight) (p : Passenger) (h0 : 0 ≤ f.bookedSeats)
    (h : f.bookedSeats < f.capacity) :
    (f.bookSeat p).1 = .ok () ∧
      (f.bookSeat p).2.bookedSeats = f.bookedSeats + 1 ∧
      (0 < (f.bookSeat p).2.bookedSeats ∧ (f.bookSeat p).2.bookedSeats ≤ f.capacity) ∧
      (f.bookSeat p).2.displayPassengers = p :: f.displayPassengers ∧
      (f.bookSeat p).2.flightNumber = f.flightNumber ∧
      (f.bookSeat p).2.origin = f.origin ∧
      (f.bookSeat p).2.destination = f.destination ∧
      (f.bookSeat p).2.capacity = f.capacity ∧
      (f.bookSeat p).2.baseTicketPrice = f.baseTicketPrice := by
  rw [Flight.bookSeat_of_lt f p h]
  refine ⟨rfl, rfl, ⟨?_, ?_⟩, rfl, rfl, rfl, rfl, rfl, rfl⟩
  · show 0 < f.bookedSeats + 1
    omega
  · show f.bookedSeats + 1 ≤ f.capacity
    omega

theorem bookSeat_available_witness :
    0 ≤ openFlight.bookedSeats ∧ openFlight.bookedSeats < openFlight.capacity ∧
      (openFlight.bookSeat bob).1 = .ok () ∧
      (openFlight.bookSeat bob).2.bookedSeats = 2 ∧
      (openFlight.bookSeat bob).2.displayPassengers = [bob, alice] :=
  ⟨by decide, by decide, (bookSeat_available openFlight bob (by decide) (by decide)).1,
    (bookSeat_available openFlight bob (by decide) (by decide)).2.1,
    (bookSeat_available openFlight bob (by decide) (by decide)).2.2.2.1⟩

/-- C7 (capacity invariant).  On a flight freshly constructed with a positive
capacity `c`, for every sequence `ps` of `Flight::bookSeat` attempts: after
the first `n` attempts, for every `n`, `bookedSeats` is `min(n, c)`, so it
lies between 0 and `c`; the attempt at position `i` (from 0) succeeds when
`i < c` and throws the `BookingException` when `c <= i`; and after an attempt
that throws, `bookedSeats` is `c`. -/
theorem capacity_invariant (flightNumber origin destination : String) (c : Int)
    (baseTicketPrice : Double) (hc : 0 < c) (ps : List Passenger) :
    (∀ n, n ≤ ps.length →
        (bookSeats (Flight.new flightNumber origin destination c baseTicketPrice)
          (ps.take n)).2.bookedSeats = min (n : Int) c) ∧
      (∀ n, 0 ≤ (bookSeats (Flight.new flightNumber origin destination c baseTicketPrice)
          (ps.take n)).2.bookedSeats ∧
        (bookSeats (Flight.new flightNumber origin destination c baseTicketPrice)
          (ps.take n)).2.bookedSeats ≤ c) ∧
      (bookSeats (Flight.new flightNumber origin destination c baseTicketPrice) ps).2.bookedSeats
        = min (ps.length : Int) c ∧
      (bookSeats (Flight.new flightNumber origin destination c baseTicketPrice) ps).1.length
        = ps.length ∧
      (∀ i, i < ps.length → (i : Int) < c →
        (bookSeats (Flight.new flightNumber origin destination c baseTicketPrice) ps).1[i]?
          = some (.ok ())) ∧
      (∀ i, i < ps.length → c ≤ (i : Int) →
        (bookSeats (Flight.new flightNumber origin destination c baseTicketPrice) ps).1[i]?
            = some (.error ⟨"No available seats on this flight."⟩) ∧
          (bookSeats (Flight.new flightNumber origin destination c baseTicketPrice)
            (ps.take (i + 1))).2.bookedSeats = c) := by
  have key : ∀ qs : List Passenger,
      (bookSeats (Flight.new flightNumber origin destination c baseTicketPrice) qs).2.bookedSeats
        = min (qs.length : Int) c := by
    intro qs
    rw [bookSeats_bookedSeats qs _ (le_of_lt hc)]
    simp [Flight.new]
  have res : ∀ i, i < ps.length →
      (bookSeats (Flight.new flightNumber origin destination c baseTicketPrice) ps).1[i]?
        = some (if (i : Int) < c then .ok () else .error ⟨noSeatsMessage⟩) := by
    intro i hi
    rw [bookSeats_result ps _ i hi]
    simp [Flight.new]
  refine ⟨?_, ?_, key ps, bookSeats_length ps _, ?_, ?_⟩
  · intro n hn
    rw [key, List.length_take, min_eq_left hn]
  · intro n
    rw [key]
    omega
  · intro i hi hlt
    rw [res i hi, if_pos hlt]
  · intro i hi hle
    refine ⟨?_, ?_⟩
    · rw [res i hi, if_neg (not_lt.mpr hle)]
      rfl
    · rw [key, List.length_take]
      omega

theorem capacity_invariant_witness :
    (0 : Int) < 1 ∧
      (bookSeats (Flight.new "F001" "New York" "Los Angeles" 1 ⟨0x4062c00000000000⟩)
        [alice, bob]).2.bookedSeats = min ((2 : Nat) : Int) 1 :=
  ⟨by decide,
    (capacity_invariant "F001" "New York" "Los Angeles" 1 ⟨0x4062c00000000000⟩ (by decide)
      [alice, bob]).2.2.1⟩

/-- C8 (roster ordering).  On a freshly constructed flight, of any capacity,
after every sequence `ps` of `Flight::bookSeat` attempts the roster walked by
`Flight::displayPassengers` is the list of the passengers whose attempt
succeeded, newest first, a passenger booked twice standing twice: it is the
reverse of the first `capacity` passengers of `ps`.  In particular after
P1, P2, P3 on a flight of capacity at least 3 it is [P3, P2, P1]. -/
theorem roster_newest_first (flightNumber origin destination : String) (c : Int)
    (baseTicketPrice : Double) (ps : List Passenger) :
    (bookSeats (Flight.new flightNumber origin destination c baseTicketPrice)
        ps).2.displayPassengers
        = (succeeded ps
            (bookSeats (Flight.new flightNumber origin destination c baseTicketPrice)
              ps).1).reverse ∧
      (bookSeats (Flight.new flightNumber origin destination c baseTicketPrice)
        ps).2.displayPassengers = (ps.take c.toNat).reverse ∧
      (∀ p1 p2 p3 : Passenger, 3 ≤ c →
        (bookSeats (Flight.new flightNumber origin destination c baseTicketPrice)
          [p1, p2, p3]).2.displayPassengers = [p3, p2, p1]) := by
  refine ⟨?_, ?_, ?_⟩
  · rw [Flight.displayPassengers, bookSeats_roster]
    simp [Flight.new]
  · rw [Flight.displayPassengers, bookSeats_roster_take]
    simp [Flight.new]
  · intro p1 p2 p3 h3
    rw [Flight.displayPassengers, bookSeats_roster_take]
    have h : (3 : Nat) ≤ c.toNat := by omega
    simp [Flight.new, List.take_of_length_le, h]

theorem roster_newest_first_witness :
    (bookSeats (Flight.new "F002" "London" "Paris" 3 ⟨0x4069000000000000⟩)
        [alice, bob, carol]).2.displayPassengers = [carol, bob, alice] ∧
      (bookSeats (Flight.new "F002" "London" "Paris" 2 ⟨0x4069000000000000⟩)
        [alice, alice, carol]).2.displayPassengers = [alice, alice] :=
  ⟨(roster_newest_first "F002" "London" "Paris" 3 ⟨0x4069000000000000⟩ []).2.2
      alice bob carol (by decide),
    (roster_newest_first "F002" "London" "Paris" 2 ⟨0x4069000000000000⟩
      [alice, alice, carol]).2.1⟩

/-- C9 (booking on a present flight).  On a catalog that satisfies the
search-tree invariant, `FlightManager::bookSeat` on the number of a flight `f`
of the catalog ends as `Flight::bookSeat` on `f` does: booked, or the same
`BookingException` thrown on.  The catalog afterwards has the same shape and
the same flight number at every node; it is the old catalog with `f` replaced
by `f` as `Flight::bookSeat` left it and every other flight as it was, so the
lookup of that number finds the replaced flight and the lookup of any other
number finds what it found before; when the exception is thrown the catalog is
the old catalog. -/
theorem book_present (t : Node) (ht : t.Ordered) (f : Flight)
    (hf : f ∈ displayFlightsRecursive t) (p : Passenger) :
    (bookSeat t f.flightNumber p).1 = BookOutcome.ofResult (f.bookSeat p).1 ∧
      (bookSeat t f.flightNumber p).2.keyTree = t.keyTree ∧
      (bookSeat t f.flightNumber p).2
        = t.mapFlights (fun x =>
            if x.flightNumber = f.flightNumber then (f.bookSeat p).2 else x) ∧
      displayPassengers (bookSeat t f.flightNumber p).2 f.flightNumber
        = some (f.bookSeat p).2 ∧
      (∀ k, k ≠ f.flightNumber →
        displayPassengers (bookSeat t f.flightNumber p).2 k = displayPassengers t k) ∧
      (∀ e, (f.bookSeat p).1 = .error e →
        (bookSeat t f.flightNumber p).1 = .threw e ∧ (bookSeat t f.flightNumber p).2 = t) ∧
      ((f.bookSeat p).1 = .ok () → (bookSeat t f.flightNumber p).1 = .booked) := by
  have hmain := bookSeat_of_mem ht hf p
  refine ⟨by rw [hmain], keyTree_bookSeat t _ p, by rw [hmain],
    displayPassengers_bookSeat_self ht hf p,
    fun k hk => displayPassengers_bookSeat_other ht hf p k hk, ?_, ?_⟩
  · intro e he
    have hsame : (f.bookSeat p).2 = f := by
      by_cases hlt : f.bookedSeats < f.capacity
      · rw [Flight.bookSeat_of_lt f p hlt] at he
        cases he
      · rw [Flight.bookSeat_of_not_lt f p hlt]
    rw [hmain, he, hsame]
    refine ⟨rfl, ?_⟩
    apply Node.mapFlights_of_fix
    intro x hx
    split_ifs with hk
    · have h1 := displayPassengers_of_mem ht hx
      rw [hk, displayPassengers_of_mem ht hf] at h1
      exact Option.some.inj h1
    · rfl
  · intro hok
    rw [hmain, hok]
    rfl

theorem book_present_witness :
    fullCatalog.Ordered ∧ fullFlight ∈ displayFlightsRecursive fullCatalog ∧
      (bookSeat fullCatalog "F001" bob).1 = .threw ⟨"No available seats on this flight."⟩ ∧
      (bookSeat fullCatalog "F001" bob).2 = fullCatalog :=
  ⟨by decide, by decide,
    ((book_present fullCatalog (by decide) fullFlight (by decide) bob).2.2.2.2.2.1
      ⟨"No available seats on this flight."⟩ rfl).1,
    ((book_present fullCatalog (by decide) fullFlight (by decide) bob).2.2.2.2.2.1
      ⟨"No available seats on this flight."⟩ rfl).2⟩

/-- C10 (booking on an absent flight).  On any catalog, satisfying the
search-tree invariant or not, `FlightManager::bookSeat` on a number that no
flight of the catalog has ends in the not-found branch after the loop, throws
no `BookingException`, and the catalog afterwards is the catalog before: no
flight's `bookedSeats` or roster changes. -/
theorem book_absent (t : Node) (k : String)
    (hk : ∀ x ∈ displayFlightsRecursive t, x.flightNumber ≠ k) (p : Passenger) :
    (bookSeat t k p).1 = .notFound ∧
      (∀ e, (bookSeat t k p).1 ≠ .threw e) ∧
      (bookSeat t k p).2 = t ∧
      displayFlightsRecursive (bookSeat t k p).2 = displayFlightsRecursive t := by
  have hnot : k ∉ t.keys := by
    intro hmem
    obtain ⟨x, hx, hxk⟩ := Node.mem_keys.mp hmem
    exact hk x hx hxk
  rw [bookSeat_of_not_mem_keys hnot p]
  refine ⟨rfl, ?_, rfl, rfl⟩
  intro e he
  exact BookOutcome.noConfusion he

theorem book_absent_witness :
    (∀ x ∈ displayFlightsRecursive fullCatalog, x.flightNumber ≠ "F999") ∧
      (bookSeat fullCatalog "F999" bob).1 = .notFound ∧
      (bookSeat fullCatalog "F999" bob).2 = fullCatalog :=
  ⟨by decide, (book_absent fullCatalog "F999" (by decide) bob).1,
    (book_absent fullCatalog "F999" (by decide) bob).2.2.1⟩

/-! ## Further facts for the claims on content, frame and shape -/

theorem firstCall_eq_find (calls : List AddFlightCall) (k : String) :
    firstCall calls k = calls.find? fun c => c.flightNumber = k := by
  induction calls with
  | nil => rfl
  | cons c cs ih =>
    by_cases h : c.flightNumber = k
    · simp [firstCall, h]
    · simp [firstCall, h, ih]

theorem firstCall_eq_none {calls : List AddFlightCall} {k : String} :
    firstCall calls k = none ↔ ∀ c ∈ calls, c.flightNumber ≠ k := by
  rw [firstCall_eq_find]
  simp

/-- The first call with a number, found behind calls with other numbers. -/
theorem firstCall_append_cons (pre post : List AddFlightCall) (c : AddFlightCall)
    (h : ∀ x ∈ pre, x.flightNumber ≠ c.flightNumber) :
    firstCall (pre ++ c :: post) c.flightNumber = some c := by
  induction pre with
  | nil => simp [firstCall]
  | cons a as ih =>
    have ha : a.flightNumber ≠ c.flightNumber := h a (List.mem_cons_self _ _)
    simp only [List.cons_append, firstCall, if_neg ha]
    exact ih fun x hx => h x (List.mem_cons_of_mem _ hx)

/-- What `firstCall` returns is a call of the sequence with that number, and no
call before it has the number. -/
theorem firstCall_eq_some {calls : List AddFlightCall} {k : String} {c : AddFlightCall}
    (h : firstCall calls k = some c) :
    c.flightNumber = k ∧
      ∃ pre post, calls = pre ++ c :: post ∧ ∀ x ∈ pre, x.flightNumber ≠ k := by
  induction calls with
  | nil => simp [firstCall] at h
  | cons a as ih =>
    by_cases ha : a.flightNumber = k
    · simp only [firstCall, if_pos ha, Option.some.injEq] at h
      subst h
      exact ⟨ha, [], as, rfl, by simp⟩
    · simp only [firstCall, if_neg ha] at h
      obtain ⟨hk, pre, post, hcalls, hpre⟩ := ih h
      refine ⟨hk, a :: pre, post, by rw [hcalls]; rfl, ?_⟩
      intro x hx
      rcases List.mem_cons.mp hx with hx | hx
      · rw [hx]; exact ha
      · exact hpre x hx

/-- The descent after a sequence of insertions on the empty catalog finds the
flight of the first call with the number. -/
theorem displayPassengers_addFlights_null (calls : List AddFlightCall) (k : String) :
    displayPassengers (addFlights .null calls) k
      = (firstCall calls k).map AddFlightCall.flight := by
  rw [displayPassengers_addFlights, firstCall_eq_find]
  rfl

/-- Under the invariant the descent runs off the tree exactly for the numbers
that are at no node. -/
theorem displayPassengers_eq_none_iff {t : Node} (ht : t.Ordered) {k : String} :
    displayPassengers t k = none ↔ k ∉ t.keys := by
  constructor
  · intro h hk
    obtain ⟨x, hx, rfl⟩ := Node.mem_keys.mp hk
    rw [displayPassengers_of_mem ht hx] at h
    cases h
  · exact displayPassengers_of_not_mem_keys

/-- The flight numbers of the catalog after a sequence of insertions on the
empty catalog are the flight numbers of the calls. -/
theorem mem_keys_addFlights_null (calls : List AddFlightCall) (k : String) :
    k ∈ (addFlights .null calls).keys ↔ k ∈ calls.map fun c => c.flightNumber := by
  have hord := ordered_addFlights Node.ordered_null calls
  have h1 := @displayPassengers_eq_none_iff _ hord k
  rw [displayPassengers_addFlights_null, Option.map_eq_none', firstCall_eq_none] at h1
  rw [List.mem_map]
  constructor
  · intro hk
    by_contra hno
    exact (h1.mp fun c hc hck => hno ⟨c, hc, hck⟩) hk
  · rintro ⟨c, hc, hck⟩
    by_contra hno
    exact (h1.mpr hno) c hc hck

theorem BookOutcome.ofResult_ne_notFound (r : Except BookingException Unit) :
    BookOutcome.ofResult r ≠ .notFound := by
  cases r <;> simp [BookOutcome.ofResult]

/-- A flight of the catalog after a booking call is a flight of the catalog
before it, or one of those as `Flight::bookSeat` left it. -/
theorem mem_bookSeat {t : Node} {k : String} {p : Passenger} {x : Flight}
    (h : x ∈ displayFlightsRecursive (bookSeat t k p).2) :
    x ∈ displayFlightsRecursive t ∨
      ∃ y ∈ displayFlightsRecursive t, x = (y.bookSeat p).2 := by
  induction t with
  | null => exact Or.inl h
  | mk g l r ihl ihr =>
    rcases lt_trichotomy k g.flightNumber with hk | hk | hk
    · rw [bookSeat_mk_lt g l r k p hk] at h
      simp only [displayFlightsRecursive_mk, List.mem_append, List.mem_cons] at h ⊢
      rcases h with h | h | h
      · rcases ihl h with h | ⟨y, hy, hxy⟩
        · exact Or.inl (Or.inl h)
        · exact Or.inr ⟨y, Or.inl hy, hxy⟩
      · exact Or.inl (Or.inr (Or.inl h))
      · exact Or.inl (Or.inr (Or.inr h))
    · subst hk
      rw [bookSeat_mk_eq] at h
      simp only [displayFlightsRecursive_mk, List.mem_append, List.mem_cons] at h ⊢
      rcases h with h | h | h
      · exact Or.inl (Or.inl h)
      · exact Or.inr ⟨g, Or.inr (Or.inl rfl), h⟩
      · exact Or.inl (Or.inr (Or.inr h))
    · rw [bookSeat_mk_gt g l r k p hk] at h
      simp only [displayFlightsRecursive_mk, List.mem_append, List.mem_cons] at h ⊢
      rcases h with h | h | h
      · exact Or.inl (Or.inl h)
      · exact Or.inl (Or.inr (Or.inl h))
      · rcases ihr h with h | ⟨y, hy, hxy⟩
        · exact Or.inl (Or.inr (Or.inr h))
        · exact Or.inr ⟨y, Or.inr (Or.inr hy), hxy⟩

/-- `Flight::bookSeat` keeps the counter between 0 and the capacity. -/
theorem Flight.bookSeat_within (f : Flight) (p : Passenger)
    (h : 0 ≤ f.bookedSeats ∧ f.bookedSeats ≤ f.capacity) :
    0 ≤ (f.bookSeat p).2.bookedSeats ∧
      (f.bookSeat p).2.bookedSeats ≤ (f.bookSeat p).2.capacity := by
  by_cases hlt : f.bookedSeats < f.capacity
  · rw [Flight.bookSeat_of_lt f p hlt]
    show 0 ≤ f.bookedSeats + 1 ∧ f.bookedSeats + 1 ≤ f.capacity
    omega
  · rw [Flight.bookSeat_of_not_lt f p hlt]
    exact h

/-- One call keeps every counter between 0 and the capacity, when the call is
not an `addFlight` with a capacity below zero. -/
theorem within_apply {t : Node}
    (ht : ∀ f ∈ displayFlightsRecursive t, 0 ≤ f.bookedSeats ∧ f.bookedSeats ≤ f.capacity)
    (op : Op) (hop : ∀ c, op = .insert c → 0 ≤ c.capacity) :
    ∀ f ∈ displayFlightsRecursive (op.apply t),
      0 ≤ f.bookedSeats ∧ f.bookedSeats ≤ f.capacity := by
  intro f hf
  cases op with
  | insert c =>
    rcases mem_insertFlight hf with h | h
    · exact ht f h
    · rw [h]
      exact ⟨le_refl _, hop c rfl⟩
  | book k p =>
    rcases mem_bookSeat hf with h | ⟨y, hy, hxy⟩
    · exact ht f h
    · rw [hxy]
      exact Flight.bookSeat_within y p (ht y hy)

theorem within_foldl (ops : List Op) (t : Node)
    (ht : ∀ f ∈ displayFlightsRecursive t, 0 ≤ f.bookedSeats ∧ f.bookedSeats ≤ f.capacity)
    (hops : ∀ c, Op.insert c ∈ ops → 0 ≤ c.capacity) :
    ∀ f ∈ displayFlightsRecursive (ops.foldl Op.apply t),
      0 ≤ f.bookedSeats ∧ f.bookedSeats ≤ f.capacity := by
  induction ops generalizing t with
  | nil => exact ht
  | cons op ops ih =>
    refine ih _ (within_apply ht op ?_) fun c hc => hops c (List.mem_cons_of_mem _ hc)
    intro c hc
    exact hops c (by rw [hc]; exact List.mem_cons_self _ _)

/-- A run of attempts keeps the roster as long as the counter says. -/
theorem bookSeats_roster_length (ps : List Passenger) (f : Flight)
    (h : (f.passengersHead.length : Int) = f.bookedSeats) :
    ((bookSeats f ps).2.passengersHead.length : Int) = (bookSeats f ps).2.bookedSeats := by
  induction ps generalizing f with
  | nil => exact h
  | cons p ps ih =>
    simp only [bookSeats]
    apply ih
    by_cases hlt : f.bookedSeats < f.capacity
    · rw [Flight.bookSeat_of_lt f p hlt]
      simp only [List.length_cons, Nat.cast_add, Nat.cast_one]
      omega
    · rw [Flight.bookSeat_of_not_lt f p hlt]
      exact h

theorem addFlights_append_singleton (t : Node) (calls : List AddFlightCall)
    (c : AddFlightCall) :
    addFlights t (calls ++ [c]) = insertFlight (addFlights t calls) c.flight := by
  simp [addFlights, List.foldl_append, addFlight, AddFlightCall.flight]

/-- A flight with a number above all numbers of a right spine goes to its end. -/
theorem insertFlight_rightSpine (fs : List Flight) (g : Flight)
    (h : ∀ f ∈ fs, f.flightNumber < g.flightNumber) :
    insertFlight (rightSpine fs) g = rightSpine (fs ++ [g]) := by
  induction fs with
  | nil => rfl
  | cons f fs ih =>
    show insertFlight (.mk f .null (rightSpine fs)) g = .mk f .null (rightSpine (fs ++ [g]))
    rw [insertFlight_mk_gt f .null (rightSpine fs) g (h f (List.mem_cons_self _ _)),
      ih fun x hx => h x (List.mem_cons_of_mem _ hx)]

theorem depth_rightSpine (fs : List Flight) : (rightSpine fs).depth = fs.length := by
  induction fs with
  | nil => rfl
  | cons f fs ih =>
    simp only [rightSpine, Node.depth, ih, List.length_cons]
    omega

theorem leftEmpty_rightSpine (fs : List Flight) : (rightSpine fs).LeftEmpty := by
  induction fs with
  | nil => trivial
  | cons f fs ih => exact ⟨rfl, ih⟩

/-- Insertions in strictly ascending order of the numbers build the right
spine of the calls' flights. -/
theorem addFlights_ascending (calls : List AddFlightCall)
    (h : (calls.map fun c => c.flightNumber).Pairwise (· < ·)) :
    addFlights .null calls = rightSpine (calls.map AddFlightCall.flight) := by
  induction calls using List.reverseRecOn with
  | nil => rfl
  | append_singleton cs c ih =>
    rw [List.map_append, List.pairwise_append] at h
    obtain ⟨hcs, -, hlt⟩ := h
    rw [addFlights_append_singleton, ih hcs, List.map_append]
    apply insertFlight_rightSpine
    intro f hf
    obtain ⟨x, hx, rfl⟩ := List.mem_map.mp hf
    exact hlt x.flightNumber (List.mem_map_of_mem _ hx) c.flightNumber (by simp)

/-! ## The claims on content, frame and shape -/

/-- C11 (not-found characterisation).  After any sequence of `addFlight` calls
on the empty catalog, the descent of `FlightManager::displayPassengers` for a
number `k` ends in the not-found branch exactly when no call of the sequence
carried `k`, and so does the descent of `FlightManager::bookSeat`.  The descent
has no other failure: it always ends, either not found or at a flight of the
catalog whose number is `k`. -/
theorem not_found_iff (calls : List AddFlightCall) (k : String) (p : Passenger) :
    (displayPassengers (addFlights .null calls) k = none ↔
        ∀ c ∈ calls, c.flightNumber ≠ k) ∧
      ((bookSeat (addFlights .null calls) k p).1 = .notFound ↔
        ∀ c ∈ calls, c.flightNumber ≠ k) ∧
      (displayPassengers (addFlights .null calls) k = none ∨
        ∃ f ∈ displayFlightsRecursive (addFlights .null calls),
          f.flightNumber = k ∧ displayPassengers (addFlights .null calls) k = some f) := by
  have hord := ordered_addFlights Node.ordered_null calls
  have hkeys : k ∈ (addFlights .null calls).keys ↔ ¬ ∀ c ∈ calls, c.flightNumber ≠ k := by
    rw [mem_keys_addFlights_null, List.mem_map]
    push_neg
    rfl
  refine ⟨?_, ?_, ?_⟩
  · rw [displayPassengers_addFlights_null, Option.map_eq_none', firstCall_eq_none]
  · constructor
    · intro h
      by_contra hno
      obtain ⟨x, hx, rfl⟩ := Node.mem_keys.mp (hkeys.mpr hno)
      rw [bookSeat_of_mem hord hx p] at h
      exact BookOutcome.ofResult_ne_notFound _ h
    · intro h
      rw [bookSeat_of_not_mem_keys (fun hk => hkeys.mp hk h) p]
  · cases hd : displayPassengers (addFlights .null calls) k with
    | none => exact Or.inl rfl
    | some f => exact Or.inr ⟨f, (mem_of_displayPassengers hd).1, (mem_of_displayPassengers hd).2, rfl⟩

/-- C12 (traversal content).  After any sequence of `addFlight` calls on the
empty catalog, the flight numbers printed by `displayFlightsRecursive` are
exactly the flight numbers of the calls, each printed once: the list is the
de-duplicated list of the calls' numbers in ascending order.  In particular
the calls for "F003", "F001", "F002", with any other arguments, print
"F001", "F002", "F003". -/
theorem traversal_content (calls : List AddFlightCall) :
    (∀ k, k ∈ (displayFlightsRecursive (addFlights .null calls)).map (fun f => f.flightNumber)
        ↔ k ∈ calls.map fun c => c.flightNumber) ∧
      (∀ k ∈ calls.map (fun c => c.flightNumber),
        ((displayFlightsRecursive (addFlights .null calls)).map
          fun f => f.flightNumber).count k = 1) ∧
      (displayFlightsRecursive (addFlights .null calls)).map (fun f => f.flightNumber)
        = ((calls.map fun c => c.flightNumber).dedup).insertionSort (· ≤ ·) ∧
      (∀ (o1 d1 o2 d2 o3 d3 : String) (c1 c2 c3 : Int) (p1 p2 p3 : Double),
        (displayFlightsRecursive (addFlights .null
          [⟨"F003", o1, d1, c1, p1⟩, ⟨"F001", o2, d2, c2, p2⟩, ⟨"F002", o3, d3, c3, p3⟩])).map
          (fun f => f.flightNumber) = ["F001", "F002", "F003"]) := by
  have hpw : ((displayFlightsRecursive (addFlights .null calls)).map
      fun f => f.flightNumber).Pairwise (· < ·) :=
    pairwise_keys_of_ordered (ordered_addFlights Node.ordered_null calls)
  have hnd : ((displayFlightsRecursive (addFlights .null calls)).map
      fun f => f.flightNumber).Nodup := hpw.imp ne_of_lt
  have hmem := mem_keys_addFlights_null calls
  refine ⟨hmem, ?_, ?_, ?_⟩
  · intro k hk
    exact List.count_eq_one_of_mem hnd ((hmem k).mpr hk)
  · refine List.eq_of_perm_of_sorted ?_ (hpw.imp le_of_lt) (List.sorted_insertionSort _ _)
    refine ((List.perm_ext_iff_of_nodup hnd (List.nodup_dedup _)).mpr ?_).trans
      (List.perm_insertionSort _ _).symm
    intro k
    rw [List.mem_dedup]
    exact hmem k
  · intro o1 d1 o2 d2 o3 d3 c1 c2 c3 p1 p2 p3
    have h13 : "F001" < "F003" := by decide
    have h21 : ¬ "F002" < "F001" := by decide
    have h12 : "F001" < "F002" := by decide
    have h23 : "F002" < "F003" := by decide
    simp [addFlights, addFlight, Flight.new, insertFlight, displayFlightsRecursive,
      h13, h21, h12, h23]

/-- C13 (insertion leaves the flights of the catalog alone).  On a catalog
that satisfies the search-tree invariant, after `addFlight` with any
arguments every flight `f` that was in the catalog is still there, and the
lookup of its number finds it as before: the same flight with the same origin,
destination, capacity, `bookedSeats`, base price and roster. -/
theorem insert_keeps_flights (t : Node) (ht : t.Ordered) (f : Flight)
    (hf : f ∈ displayFlightsRecursive t) (flightNumber origin destination : String)
    (capacity : Int) (baseTicketPrice : Double) :
    displayPassengers t f.flightNumber = some f ∧
      displayPassengers
        (addFlight t flightNumber origin destination capacity baseTicketPrice) f.flightNumber
        = some f ∧
      f ∈ displayFlightsRecursive
        (addFlight t flightNumber origin destination capacity baseTicketPrice) := by
  have h0 := displayPassengers_of_mem ht hf
  have h1 : displayPassengers
      (addFlight t flightNumber origin destination capacity baseTicketPrice) f.flightNumber
      = some f := by
    rw [addFlight, displayPassengers_insertFlight, h0, Option.or_some]
  exact ⟨h0, h1, (mem_of_displayPassengers h1).1⟩

theorem insert_keeps_flights_witness :
    fullCatalog.Ordered ∧ fullFlight ∈ displayFlightsRecursive fullCatalog ∧
      displayPassengers (addFlight fullCatalog "F002" "London" "Paris" 120 ⟨0x4069000000000000⟩)
        "F001" = some fullFlight :=
  ⟨by decide, by decide,
    (insert_keeps_flights fullCatalog (by decide) fullFlight (by decide)
      "F002" "London" "Paris" 120 ⟨0x4069000000000000⟩).2.1⟩

/-- C14, as stated, fails: `addFlight` takes any `int` as capacity.  After the
single call `addFlight("F001", "New York", "Los Angeles", -1, 150.0)` the
catalog holds a flight with `bookedSeats` 0 above its capacity -1, and
`getAvailableSeats` returns -1. -/
theorem seats_negative_capacity :
    (∃ f ∈ displayFlightsRecursive (run [.insert negativeCall]),
        f.bookedSeats = 0 ∧ f.capacity = -1 ∧ f.getAvailableSeats = -1) ∧
      ¬ ∀ f ∈ displayFlightsRecursive (run [.insert negativeCall]),
        0 ≤ f.bookedSeats ∧ f.bookedSeats ≤ f.capacity ∧ 0 ≤ f.getAvailableSeats := by
  decide

/-- C14, amended (available seats are never negative when no capacity is).
In every catalog reached from the empty catalog by a sequence of `addFlight`
and `FlightManager::bookSeat` calls in which every `addFlight` carries a
capacity of at least 0, every flight has `0 <= bookedSeats <= capacity`, and
`getAvailableSeats` returns `capacity - bookedSeats`, which is at least 0. -/
theorem seats_within_capacity (ops : List Op)
    (hcap : ∀ c, Op.insert c ∈ ops → 0 ≤ c.capacity) :
    ∀ f ∈ displayFlightsRecursive (run ops),
      0 ≤ f.bookedSeats ∧ f.bookedSeats ≤ f.capacity ∧
        f.getAvailableSeats = f.capacity - f.bookedSeats ∧ 0 ≤ f.getAvailableSeats := by
  intro f hf
  have h := within_foldl ops .null (fun x hx => by simp [displayFlightsRecursive] at hx)
    hcap f hf
  refine ⟨h.1, h.2, rfl, ?_⟩
  show 0 ≤ f.capacity - f.bookedSeats
  omega

theorem seats_within_capacity_witness :
    (∀ c, Op.insert c ∈ [Op.insert callF001, Op.book "F001" alice] → 0 ≤ c.capacity) ∧
      ∀ f ∈ displayFlightsRecursive (run [Op.insert callF001, Op.book "F001" alice]),
        0 ≤ f.bookedSeats ∧ f.bookedSeats ≤ f.capacity ∧
          f.getAvailableSeats = f.capacity - f.bookedSeats ∧ 0 ≤ f.getAvailableSeats :=
  have hcap : ∀ c, Op.insert c ∈ [Op.insert callF001, Op.book "F001" alice] →
      0 ≤ c.capacity := by
    intro c hc
    simp at hc
    rw [hc]
    decide
  ⟨hcap, seats_within_capacity [Op.insert callF001, Op.book "F001" alice] hcap⟩

/-- C15 (first insert wins).  After any sequence of `addFlight` calls on the
empty catalog, duplicates allowed, the lookup of the number of a call `c`
that no earlier call carried finds the flight constructed from the arguments
of `c`, and `FlightManager::bookSeat` on that number ends as `Flight::bookSeat`
on that flight does; no flight of the catalog with that number comes from a
later call.  For every number the lookup agrees with the first call of the
sequence carrying it. -/
theorem first_insert_wins (pre post : List AddFlightCall) (c : AddFlightCall)
    (hfirst : ∀ x ∈ pre, x.flightNumber ≠ c.flightNumber) (p : Passenger) :
    displayPassengers (addFlights .null (pre ++ c :: post)) c.flightNumber
        = some { flightNumber := c.flightNumber, origin := c.origin,
                 destination := c.destination, capacity := c.capacity, bookedSeats := 0,
                 baseTicketPrice := c.baseTicketPrice, passengersHead := [] } ∧
      (bookSeat (addFlights .null (pre ++ c :: post)) c.flightNumber p).1
        = BookOutcome.ofResult (c.flight.bookSeat p).1 ∧
      (∀ f ∈ displayFlightsRecursive (addFlights .null (pre ++ c :: post)),
        f.flightNumber = c.flightNumber → f = c.flight) ∧
      (∀ k, displayPassengers (addFlights .null (pre ++ c :: post)) k
        = (firstCall (pre ++ c :: post) k).map AddFlightCall.flight) := by
  have hord := ordered_addFlights Node.ordered_null (pre ++ c :: post)
  have hlook : displayPassengers (addFlights .null (pre ++ c :: post)) c.flightNumber
      = some c.flight := by
    rw [displayPassengers_addFlights_null, firstCall_append_cons pre post c hfirst]
    rfl
  have hmem := (mem_of_displayPassengers hlook).1
  have hkey : c.flight.flightNumber = c.flightNumber := rfl
  refine ⟨hlook, ?_, ?_, fun k => displayPassengers_addFlights_null _ k⟩
  · rw [← hkey, bookSeat_of_mem hord hmem p]
  · intro f hf hfk
    have h1 := displayPassengers_of_mem hord hf
    rw [hfk, hlook] at h1
    exact (Option.some.inj h1).symm

theorem first_insert_wins_witness :
    (∀ x ∈ [callF003], x.flightNumber ≠ callF001.flightNumber) ∧
      displayPassengers
        (addFlights .null ([callF003] ++ callF001 :: [callF002, callF001Again])) "F001"
        = some ⟨"F001", "New York", "Los Angeles", 100, 0, ⟨0x4062c00000000000⟩, []⟩ :=
  ⟨by decide,
    (first_insert_wins [callF003] [callF002, callF001Again] callF001 (by decide) alice).1⟩

/-- C16 (roster length equals the counter).  On a freshly constructed flight,
of any capacity, after every sequence of `Flight::bookSeat` attempts, failed
ones included, the number of nodes of the list at `passengersHead`, which
`Flight::displayPassengers` walks, equals `bookedSeats`. -/
theorem roster_length_eq_bookedSeats (flightNumber origin destination : String) (c : Int)
    (baseTicketPrice : Double) (ps : List Passenger) :
    (((bookSeats (Flight.new flightNumber origin destination c baseTicketPrice)
        ps).2.passengersHead.length : Nat) : Int)
        = (bookSeats (Flight.new flightNumber origin destination c baseTicketPrice)
            ps).2.bookedSeats ∧
      (((bookSeats (Flight.new flightNumber origin destination c baseTicketPrice)
        ps).2.displayPassengers.length : Nat) : Int)
        = (bookSeats (Flight.new flightNumber origin destination c baseTicketPrice)
            ps).2.bookedSeats :=
  have h := bookSeats_roster_length ps
    (Flight.new flightNumber origin destination c baseTicketPrice) rfl
  ⟨h, h⟩

/-- C17 (no rebalancing, degenerate shape).  After `addFlight` calls with
strictly increasing flight numbers on the empty catalog, the catalog is a
right spine: every node has an empty left child, the flights hang one below
the other in the order of the calls, and the depth is the number of calls
(also for no call at all).  The twenty calls of `main`, "F001" to "F020",
are such a sequence. -/
theorem ascending_inserts_right_spine (calls : List AddFlightCall)
    (hinc : List.Chain' (· < ·) (calls.map fun c => c.flightNumber)) :
    (addFlights .null calls).LeftEmpty ∧
      (addFlights .null calls).depth = calls.length ∧
      addFlights .null calls = rightSpine (calls.map AddFlightCall.flight) := by
  have h := addFlights_ascending calls (List.chain'_iff_pairwise.mp hinc)
  rw [h]
  exact ⟨leftEmpty_rightSpine _, by rw [depth_rightSpine, List.length_map], rfl⟩

theorem ascending_inserts_right_spine_witness :
    List.Chain' (· < ·) (mainCalls.map fun c => c.flightNumber) ∧
      (addFlights .null mainCalls).LeftEmpty ∧
      (addFlights .null mainCalls).depth = 20 :=
  ⟨List.chain'_iff_pairwise.mpr (by decide),
    (ascending_inserts_right_spine mainCalls (List.chain'_iff_pairwise.mpr (by decide))).1,
    (ascending_inserts_right_spine mainCalls (List.chain'_iff_pairwise.mpr (by decide))).2.1⟩

end Dawood
